/-
Verification of the local-transcribe dictation engine (Rust sources under
src/src-tauri/src) against its natural-language specification.

Shallow embedding conventions:
* Rust `Vec<T>` / slices become `List`; `String` becomes `List Char`
  (with UTF-8 byte offsets computed through `Char.utf8Size` where the code
  works with byte positions).
* `f32` / `f64` sample values and arithmetic are modelled as exact rational
  arithmetic (`ℚ`); the float-to-integer casts `as usize` on non-negative
  values become `Nat.floor`.
* Fallible Rust functions returning `Result<T, String>` become
  `Except String T`.
* External libraries (whisper inference, CTranslate2 inference, the
  `whatlang` detector, the OS clipboard and keystroke synthesis) are
  modelled as explicit parameters or environment records, so each theorem
  quantifies over every behaviour of the external world.
-/
import Mathlib

deriving instance DecidableEq for Except

namespace LocalTranscribe

/-! ### UTF-8 helpers

Rust strings index by UTF-8 byte offset (`m.start()`, `replace_range`,
`text[a..b]`).  We model text as `List Char` and convert char prefixes to
byte offsets with `Char.utf8Size`. -/

/-- UTF-8 encoding of a single character (standard 1-4 byte encoding). -/
def charUtf8 (c : Char) : List Nat :=
  let v := c.toNat
  if v ≤ 0x7F then [v]
  else if v ≤ 0x7FF then [0xC0 + v / 64, 0x80 + v % 64]
  else if v ≤ 0xFFFF then [0xE0 + v / 4096, 0x80 + v / 64 % 64, 0x80 + v % 64]
  else [0xF0 + v / 262144, 0x80 + v / 4096 % 64, 0x80 + v / 64 % 64, 0x80 + v % 64]

/-- UTF-8 encoding of a character list. -/
def utf8Encode (s : List Char) : List Nat :=
  s.flatMap charUtf8

/-- Byte length of a character list under UTF-8, as used by Rust `str::len`. -/
def utf8Len (s : List Char) : Nat :=
  (utf8Encode s).length

theorem utf8Encode_append (a b : List Char) :
    utf8Encode (a ++ b) = utf8Encode a ++ utf8Encode b := by
  simp [utf8Encode]

theorem charUtf8_ne_nil (c : Char) : charUtf8 c ≠ [] := by
  unfold charUtf8
  dsimp only
  split_ifs <;> simp

theorem utf8Len_append (a b : List Char) :
    utf8Len (a ++ b) = utf8Len a + utf8Len b := by
  simp [utf8Len, utf8Encode_append]

/-! ### src/audio/resampler.rs

```rust
pub fn resample(input: &[f32], from_rate: u32, to_rate: u32) -> Vec<f32> {
    if from_rate == to_rate || input.is_empty() { return input.to_vec(); }
    let ratio = from_rate as f64 / to_rate as f64;
    let output_len = (input.len() as f64 / ratio) as usize;
    let mut output = Vec::with_capacity(output_len);
    for i in 0..output_len {
        let src_idx = i as f64 * ratio;
        let idx_floor = src_idx as usize;
        let frac = src_idx - idx_floor as f64;
        let sample = if idx_floor + 1 < input.len() {
            input[idx_floor] as f64 * (1.0 - frac) + input[idx_floor + 1] as f64 * frac
        } else {
            input[idx_floor] as f64
        };
        output.push(sample as f32);
    }
    output
}
```
f64 arithmetic is modelled as exact `ℚ` arithmetic. -/

/-- `output_len` of `resample`: `(input.len() as f64 / ratio) as usize`. -/
def resampleOutputLen (len fromRate toRate : Nat) : Nat :=
  ⌊(len : ℚ) / ((fromRate : ℚ) / (toRate : ℚ))⌋₊

/-- `idx_floor` computed for output index `i`: `(i as f64 * ratio) as usize`. -/
def resampleIdxFloor (fromRate toRate i : Nat) : Nat :=
  ⌊(i : ℚ) * ((fromRate : ℚ) / (toRate : ℚ))⌋₊

/-- One interpolated output sample of `resample` (the loop body). -/
def resampleSample (input : List ℚ) (fromRate toRate i : Nat) : ℚ :=
  let ratio : ℚ := (fromRate : ℚ) / (toRate : ℚ)
  let srcIdx : ℚ := (i : ℚ) * ratio
  let idxFloor : Nat := resampleIdxFloor fromRate toRate i
  let frac : ℚ := srcIdx - (idxFloor : ℚ)
  if idxFloor + 1 < input.length then
    input.getD idxFloor 0 * (1 - frac) + input.getD (idxFloor + 1) 0 * frac
  else
    input.getD idxFloor 0

/-- Model of `resample` from src/audio/resampler.rs. -/
def resample (input : List ℚ) (fromRate toRate : Nat) : List ℚ :=
  if fromRate = toRate ∨ input = [] then input
  else
    (List.range (resampleOutputLen input.length fromRate toRate)).map
      (resampleSample input fromRate toRate)

/-- `⌊(a : ℚ) * (b / c)⌋₊ = a * b / c` over naturals (c ≠ 0). -/
theorem floor_mul_div (a b c : Nat) (_hc : 0 < c) :
    ⌊(a : ℚ) * ((b : ℚ) / (c : ℚ))⌋₊ = a * b / c := by
  have : (a : ℚ) * ((b : ℚ) / (c : ℚ)) = ((a * b : Nat) : ℚ) / ((c : Nat) : ℚ) := by
    push_cast; ring
  rw [this, Nat.floor_div_nat, Nat.floor_natCast]

/-- `⌊(a : ℚ) / (b / c)⌋₊ = a * c / b` over naturals (b, c ≠ 0). -/
theorem floor_div_div (a b c : Nat) (hb : 0 < b) (hc : 0 < c) :
    ⌊(a : ℚ) / ((b : ℚ) / (c : ℚ))⌋₊ = a * c / b := by
  have hb' : ((b : ℚ)) ≠ 0 := by exact_mod_cast hb.ne'
  have hc' : ((c : ℚ)) ≠ 0 := by exact_mod_cast hc.ne'
  have : (a : ℚ) / ((b : ℚ) / (c : ℚ)) = ((a * c : Nat) : ℚ) / ((b : Nat) : ℚ) := by
    push_cast; field_simp
  rw [this, Nat.floor_div_nat, Nat.floor_natCast]

theorem resampleOutputLen_eq (len fromRate toRate : Nat)
    (hf : 0 < fromRate) (ht : 0 < toRate) :
    resampleOutputLen len fromRate toRate = len * toRate / fromRate := by
  unfold resampleOutputLen
  exact floor_div_div len fromRate toRate hf ht

theorem resampleIdxFloor_eq (fromRate toRate i : Nat) (ht : 0 < toRate) :
    resampleIdxFloor fromRate toRate i = i * fromRate / toRate := by
  unfold resampleIdxFloor
  exact floor_mul_div i fromRate toRate ht

/-! ### src/audio/levels.rs

```rust
pub fn compute_levels(buffer: &[f32], sample_rate: u32, num_bars: usize) -> Vec<f32> {
    let samples_per_bar = (sample_rate as f32 * 0.033) as usize;
    let total_needed = samples_per_bar * num_bars;
    let start = if buffer.len() > total_needed { buffer.len() - total_needed } else { 0 };
    let relevant = &buffer[start..];
    let mut levels = Vec::with_capacity(num_bars);
    for i in 0..num_bars {
        let chunk_start = i * samples_per_bar;
        let chunk_end = ((i + 1) * samples_per_bar).min(relevant.len());
        if chunk_start >= relevant.len() {
            levels.push(0.0);
        } else {
            let chunk = &relevant[chunk_start..chunk_end];
            let rms = (chunk.iter().map(|s| s * s).sum::<f32>() / chunk.len() as f32).sqrt();
            levels.push(rms);
        }
    }
    levels
}
```
f32 arithmetic is modelled as exact `ℚ` arithmetic (`0.033` as `33/1000`);
the final `sqrt` maps into `ℝ` through `Real.sqrt` (for the zero-padding
branch the code pushes the literal `0.0`, and `Real.sqrt 0 = 0`, so pushing
the value before `sqrt` and mapping `sqrt` over the result is the same). -/

/-- `samples_per_bar = (sample_rate as f32 * 0.033) as usize`. -/
def samplesPerBar (sampleRate : Nat) : Nat :=
  ⌊(sampleRate : ℚ) * (33 / 1000 : ℚ)⌋₊

/-- The slice `relevant = &buffer[start..]` of `compute_levels`. -/
def levelsRelevant (buffer : List ℚ) (sampleRate numBars : Nat) : List ℚ :=
  let totalNeeded := samplesPerBar sampleRate * numBars
  let start := if buffer.length > totalNeeded then buffer.length - totalNeeded else 0
  buffer.drop start

/-- One loop iteration of `compute_levels`, before the final `sqrt`:
the mean square of chunk `i`, or `0` for a padding bar past the buffer. -/
def levelBarSq (relevant : List ℚ) (spb i : Nat) : ℚ :=
  let chunkStart := i * spb
  let chunkEnd := min ((i + 1) * spb) relevant.length
  if chunkStart ≥ relevant.length then 0
  else
    let chunk := (relevant.drop chunkStart).take (chunkEnd - chunkStart)
    (chunk.map (fun s => s * s)).sum / (chunk.length : ℚ)

/-- `compute_levels` with the final per-bar `sqrt` still unapplied. -/
def computeLevelsSq (buffer : List ℚ) (sampleRate numBars : Nat) : List ℚ :=
  (List.range numBars).map
    (levelBarSq (levelsRelevant buffer sampleRate numBars) (samplesPerBar sampleRate))

/-- Model of `compute_levels` from src/audio/levels.rs. -/
noncomputable def compute_levels (buffer : List ℚ) (sampleRate numBars : Nat) : List ℝ :=
  (computeLevelsSq buffer sampleRate numBars).map (fun q : ℚ => Real.sqrt ((q : ℝ)))

/-! ### src/history.rs

```rust
const MAX_HISTORY_ENTRIES: usize = 50;
pub fn add_entry(entry: HistoryEntry) -> Result<()> {
    let mut history = load_history();
    history.entries.insert(0, entry);
    if history.entries.len() > MAX_HISTORY_ENTRIES {
        history.entries.truncate(MAX_HISTORY_ENTRIES);
    }
    save_history(&history)
}
```
The JSON load/save round trip is the identity on the entries list, so
`add_entry` is modelled as the pure list transformation it performs. -/

structure HistoryEntry where
  id : Nat
  text : List Char
  timestampMs : Nat
  durationMs : Nat
deriving DecidableEq, Repr, Inhabited

def MAX_HISTORY_ENTRIES : Nat := 50

/-- Model of `add_entry`: insert at index 0, truncate to the cap. -/
def add_entry (entry : HistoryEntry) (entries : List HistoryEntry) : List HistoryEntry :=
  let inserted := entry :: entries
  if inserted.length > MAX_HISTORY_ENTRIES then inserted.take MAX_HISTORY_ENTRIES
  else inserted

/-- Folding a whole sequence of insertions (oldest first) over a history. -/
def addAll (entries : List HistoryEntry) (start : List HistoryEntry) : List HistoryEntry :=
  entries.foldl (fun h e => add_entry e h) start

/-- Rust `str::trim`: strip leading and trailing whitespace (whitespace per
`Char.isWhitespace`).  Defined by structural recursion so that it evaluates
inside the kernel. -/
def trim (s : String) : String :=
  ⟨((s.data.dropWhile Char.isWhitespace).reverse.dropWhile Char.isWhitespace).reverse⟩

/-! ### src/transcription/whisper.rs

The worker owns a `TranscriptionService` (a loaded whisper context/state, or
nothing).  The external whisper library is abstracted into an `AsrEnv`:
`loadOk` gives the outcome of `WhisperContext::new_with_params` plus
`create_state` for a path, and `infer` gives the text assembled from the
segments of a successful `state.full` run (or the inference error) for a
loaded model, the decoding parameters and the audio.  Theorems quantify
over every environment.  Identifier note: the source's `TranscribePartial`
request and partial-string channel are rendered here as `transcribeInterim`
and `interim`. -/

/-- Decoding parameters set by `TranscriptionService::transcribe`
(whisper.rs lines 41-49). -/
structure FullParams where
  nThreads : Nat
  language : Option String
  noContext : Bool
  singleSegment : Bool
  suppressBlank : Bool
  suppressNst : Bool
  noTimestamps : Bool
  printProgress : Bool
deriving DecidableEq, Repr

/-- The parameter block built by `transcribe`: greedy sampling, 4 threads,
language hint hardcoded to `Some("en")`. -/
def transcribeParams : FullParams :=
  { nThreads := 4
    language := some "en"
    noContext := true
    singleSegment := false
    suppressBlank := true
    suppressNst := true
    noTimestamps := true
    printProgress := false }

/-- Abstraction of the whisper-rs library behaviour. -/
structure AsrEnv where
  loadOk : String → Except String Unit
  infer : String → FullParams → List ℚ → Except String String

/-- `TranscriptionService`: `context`/`state` are present together exactly
when a model is loaded; the path identifies the loaded model. -/
structure TranscriptionService where
  model : Option String
deriving DecidableEq, Repr

/-- Model of `TranscriptionService::load_model`: the existing state is
dropped first, then context and state are rebuilt from the path. -/
def TranscriptionService.load_model (env : AsrEnv) (_svc : TranscriptionService)
    (path : String) : TranscriptionService × Except String Unit :=
  match env.loadOk path with
  | .ok _ => (⟨some path⟩, .ok ())
  | .error e => (⟨none⟩, .error ("Failed to load Whisper model: " ++ e))

/-- Model of `TranscriptionService::transcribe`: fails when no model is
loaded, otherwise runs inference with `transcribeParams` and returns the
trimmed segment text. -/
def TranscriptionService.transcribe (env : AsrEnv) (svc : TranscriptionService)
    (audio : List ℚ) : Except String String :=
  match svc.model with
  | none => .error "Model not loaded"
  | some m =>
      match env.infer m transcribeParams audio with
      | .ok text => .ok (trim text)
      | .error e => .error ("Transcription failed: " ++ e)

/-- The requests served by the ASR worker (whisper.rs lines 66-71):
`LoadModel`, `Transcribe` (= Final), `TranscribePartial` (here
`transcribeInterim`), `Shutdown`.  There is no language request. -/
inductive TranscriptionRequest where
  | loadModel (path : String)
  | transcribe (audio : List ℚ)
  | transcribeInterim (audio : List ℚ)
  | shutdown
deriving DecidableEq, Repr

/-- Responses on the final channel (whisper.rs lines 73-76). -/
inductive TranscriptionResponse where
  | modelLoaded (r : Except String Unit)
  | transcriptionComplete (r : Except String String)
deriving Repr

/-- Everything one worker iteration produces: the updated service, the
responses sent on the final channel, the strings sent on the partial
channel, the requests left in the mailbox, and whether the worker exited. -/
structure DrainOut where
  svc : TranscriptionService
  responses : List TranscriptionResponse
  interim : List String
  remaining : List TranscriptionRequest
  exited : Bool
deriving Repr

/-- Model of the drain loop run after popping a `TranscribePartial`
(whisper.rs lines 100-132): newer partials overwrite the held samples, a
`Transcribe` stops the drain and is run instead of the partial, `LoadModel`
is served inline, `Shutdown` exits the worker; with no interrupting final,
the newest samples are transcribed and a successful result is trimmed and
sent on the partial channel. -/
def drainInterim (env : AsrEnv) (svc : TranscriptionService) (latest : List ℚ) :
    List TranscriptionRequest → DrainOut
  | [] =>
      match svc.transcribe env latest with
      | .ok text =>
          { svc := svc, responses := [], interim := [trim text], remaining := [], exited := false }
      | .error _ =>
          { svc := svc, responses := [], interim := [], remaining := [], exited := false }
  | .transcribeInterim newer :: rest => drainInterim env svc newer rest
  | .transcribe finalAudio :: rest =>
      { svc := svc
        responses := [.transcriptionComplete (svc.transcribe env finalAudio)]
        interim := []
        remaining := rest
        exited := false }
  | .loadModel path :: rest =>
      let loaded := svc.load_model env path
      let out := drainInterim env loaded.1 latest rest
      { out with responses := .modelLoaded loaded.2 :: out.responses }
  | .shutdown :: rest =>
      { svc := svc, responses := [], interim := [], remaining := rest, exited := true }

/-- Model of one whole worker-loop iteration (whisper.rs lines 90-137):
dispatch on the popped request, with the drain loop entered from
`TranscribePartial`. -/
def workerStep (env : AsrEnv) (svc : TranscriptionService) :
    TranscriptionRequest → List TranscriptionRequest → DrainOut
  | .loadModel path, rest =>
      let loaded := svc.load_model env path
      { svc := loaded.1, responses := [.modelLoaded loaded.2], interim := [],
        remaining := rest, exited := false }
  | .transcribe audio, rest =>
      { svc := svc, responses := [.transcriptionComplete (svc.transcribe env audio)],
        interim := [], remaining := rest, exited := false }
  | .transcribeInterim audio, rest => drainInterim env svc audio rest
  | .shutdown, rest =>
      { svc := svc, responses := [], interim := [], remaining := rest, exited := true }

/-- A request is a Partial or a Final (the shapes in the spec's
`P₁ P₂ … Pₖ F` drain-policy sequences). -/
def isDrainReq (r : TranscriptionRequest) : Prop :=
  (∃ a, r = .transcribe a) ∨ (∃ a, r = .transcribeInterim a)

/-- The samples of the first `Transcribe` (Final) in the queue, if any. -/
def firstFinal : List TranscriptionRequest → Option (List ℚ)
  | [] => none
  | .transcribe a :: _ => some a
  | _ :: rest => firstFinal rest

/-- The samples of the newest drained Partial: the last `transcribeInterim`
of the queue, or the samples already held when the queue has none. -/
def newestInterim (held : List ℚ) : List TranscriptionRequest → List ℚ
  | [] => held
  | .transcribeInterim a :: rest => newestInterim a rest
  | _ :: rest => newestInterim held rest

/-! ### src/translation/engine.rs

The external pieces — the `whatlang` detector and the CTranslate2
translator — are abstracted into an `MtEnv`.  `run tr text target` stands
for `translate_batch_with_target_prefix` on the loaded translator `tr`
with source `[text]` and target prefix `[[target]]` (beam 1, max decoding
length 256), yielding the first output hypothesis. -/

/-- The `whatlang::Lang` values distinguished by `nllb_lang_for_detected`;
`other` stands for every remaining detected language (the `_ => None`
arm). -/
inductive WLang where
  | eng | spa | fra | deu | ita | por | cmn | jpn | kor | rus
  | ara | hin | nld | pol | tur | swe | ukr | other
deriving DecidableEq, Repr

/-- Model of `nllb_lang_for_detected` (engine.rs lines 107-128). -/
def nllb_lang_for_detected : WLang → Option String
  | .eng => some "eng_Latn"
  | .spa => some "spa_Latn"
  | .fra => some "fra_Latn"
  | .deu => some "deu_Latn"
  | .ita => some "ita_Latn"
  | .por => some "por_Latn"
  | .cmn => some "zho_Hans"
  | .jpn => some "jpn_Jpan"
  | .kor => some "kor_Hang"
  | .rus => some "rus_Cyrl"
  | .ara => some "arb_Arab"
  | .hin => some "hin_Deva"
  | .nld => some "nld_Latn"
  | .pol => some "pol_Latn"
  | .tur => some "tur_Latn"
  | .swe => some "swe_Latn"
  | .ukr => some "ukr_Cyrl"
  | .other => none

/-- Model of `nllb_lang_for_app_lang` (engine.rs lines 130-151). -/
def nllb_lang_for_app_lang : String → Option String
  | "en" => some "eng_Latn"
  | "es" => some "spa_Latn"
  | "fr" => some "fra_Latn"
  | "de" => some "deu_Latn"
  | "it" => some "ita_Latn"
  | "pt" => some "por_Latn"
  | "zh" => some "zho_Hans"
  | "ja" => some "jpn_Jpan"
  | "ko" => some "kor_Hang"
  | "ru" => some "rus_Cyrl"
  | "ar" => some "arb_Arab"
  | "hi" => some "hin_Deva"
  | "nl" => some "nld_Latn"
  | "pl" => some "pol_Latn"
  | "tr" => some "tur_Latn"
  | "sv" => some "swe_Latn"
  | "uk" => some "ukr_Cyrl"
  | _ => none

/-- Abstraction of the whatlang detector and the CTranslate2 translator. -/
structure MtEnv where
  detect : String → Option WLang
  loadOk : String → Except String Unit
  run : String → String → String → Except String String

/-- Model of `resolve_source_nllb_lang` (engine.rs lines 97-105): for the
literal `auto` run detection and fall back to English; otherwise map the
app language code. -/
def resolve_source_nllb_lang (env : MtEnv) (sourceLang text : String) : Option String :=
  if sourceLang = "auto" then
    ((env.detect text).bind nllb_lang_for_detected).or (some "eng_Latn")
  else
    nllb_lang_for_app_lang sourceLang

structure TranslationJob where
  text : String
  sourceLang : String
  targetLang : String
deriving DecidableEq, Repr

structure TranslationService where
  translator : Option String
  sourceLang : Option String
  targetLang : String
  modelLoaded : Bool
deriving DecidableEq, Repr

/-- Model of `TranslationService::translate` (engine.rs lines 46-94). -/
def TranslationService.translate (env : MtEnv) (svc : TranslationService)
    (job : TranslationJob) : Except String String :=
  if ¬svc.modelLoaded then .error "Translation model not loaded"
  else
    let text := trim job.text
    if text = "" then .ok ""
    else
      match nllb_lang_for_app_lang job.targetLang with
      | none => .error ("Unsupported target language " ++ job.targetLang)
      | some targetNllb =>
        match resolve_source_nllb_lang env job.sourceLang text with
        | none => .error ("Unsupported source language " ++ job.sourceLang)
        | some sourceNllb =>
          if sourceNllb = targetNllb then .ok text
          else
            match svc.translator with
            | none => .error "Translation model not initialized"
            | some tr =>
              match env.run tr text targetNllb with
              | .error e => .error ("Translation inference failed: " ++ e)
              | .ok out =>
                  let translated := trim out
                  if translated = "" then .ok text else .ok translated

/-! ### src/input/paste.rs

`paste_text(text, smart_paste)` drives the `arboard` clipboard and the
`enigo` keystroke synthesizer; both are abstracted into a `PasteEnv` of
outcome flags plus the current clipboard contents.  `keyOk` covers the
three key syntheses (press Meta, click 'v', release Meta) together — on
its failure the first error message is reported.  The final clipboard
contents and the synthesized key events are returned alongside the
`Result`. -/

/-- Keys used by the embedding of `paste_text`.  The source presses only
`Key::Meta` and `Key::Unicode('v')`; `ctrl` is included so that the claim
about a Ctrl+V shortcut can be stated (and refuted). -/
inductive EnigoKey where
  | meta
  | ctrl
  | unicode (c : Char)
deriving DecidableEq, Repr

/-- A synthesized key event (`enigo.key(key, direction)`). -/
inductive KeyEvent where
  | press (k : EnigoKey)
  | click (k : EnigoKey)
  | release (k : EnigoKey)
deriving DecidableEq, Repr

/-- Environment of `paste_text`: the platform, the accessibility probe,
the clipboard contents (`none` when absent/non-text, mirroring
`get_text().ok()` after a failure), and success flags for the fallible
library calls. -/
structure PasteEnv where
  macos : Bool
  focused : Bool
  clip : Option String
  clipboardNewOk : Bool
  setTextOk : Bool
  enigoNewOk : Bool
  keyOk : Bool
  restoreClipNewOk : Bool
deriving DecidableEq, Repr

/-- Model of `is_text_field_focused`: the macOS accessibility probe, and
the constant `true` on every other platform (paste.rs lines 122-125). -/
def is_text_field_focused (env : PasteEnv) : Bool :=
  if env.macos then env.focused else true

/-- Result of a `paste_text` run: the `Result` value, the clipboard
contents afterwards, and the key events synthesized. -/
structure PasteOut where
  result : Except String Unit
  clip : Option String
  keys : List KeyEvent
deriving DecidableEq, Repr

/-- Model of `paste_text` (paste.rs lines 130-181). -/
def paste_text (env : PasteEnv) (text : String) (smartPaste : Bool) : PasteOut :=
  if !env.clipboardNewOk then
    { result := .error "Failed to access clipboard", clip := env.clip, keys := [] }
  else
    let shouldAutoPaste := !smartPaste || is_text_field_focused env
    if shouldAutoPaste then
      let prev := env.clip
      if !env.setTextOk then
        { result := .error "Failed to set clipboard text", clip := env.clip, keys := [] }
      else if !env.enigoNewOk then
        { result := .error "Failed to create enigo instance", clip := some text, keys := [] }
      else if !env.keyOk then
        { result := .error "Failed to press Meta key", clip := some text, keys := [] }
      else
        let keys := [KeyEvent.press .meta, KeyEvent.click (.unicode 'v'), KeyEvent.release .meta]
        if env.restoreClipNewOk then
          match prev with
          | some p =>
              if p ≠ "" then { result := .ok (), clip := some p, keys := keys }
              else { result := .ok (), clip := none, keys := keys }
          | none => { result := .ok (), clip := none, keys := keys }
        else
          { result := .ok (), clip := some text, keys := keys }
    else
      if !env.setTextOk then
        { result := .error "Failed to set clipboard text", clip := env.clip, keys := [] }
      else
        { result := .ok (), clip := some text, keys := [] }

/-! ### src/state.rs and the src/lib.rs state machine

`DictationState` is the tagged union of state.rs.  Strings are kept as
`Char` lists where byte positions matter (corrections) and as `String`
elsewhere; the source's `partial_text` / `partial_translation` fields are
rendered `interimText` / `interimTranslation`.  `toggle_recording`
(lib.rs lines 266-930) and `cancel_recording` (lib.rs lines 1628-1673)
become functions from an environment (outcomes of the permission probe,
capture creation/start, and the stopped audio) and the app state to the
new app state plus the list of side effects performed, in order. -/

/-- `CorrectionApplied { original, replacement, position }` with `position`
a UTF-8 byte offset (vocabulary.rs lines 74-79). -/
structure CorrectionApplied where
  original : List Char
  replacement : List Char
  position : Nat
deriving DecidableEq, Repr, Inhabited

/-- The `DictationState` tagged union (state.rs lines 8-39). -/
inductive DictationState where
  | idle
  | recording (durationMs : Nat) (interimText : Option String)
      (interimTranslation : Option String) (sourceLang : String) (targetLang : String)
  | processing
  | translating
  | downloading (progress : ℚ)
  | error (message : String)
  | correctionPreview (text : String) (originalText : String)
      (corrections : List CorrectionApplied)
  | translationPreview (sourceText : String) (translatedText : String)
      (sourceLang : String) (targetLang : String)
deriving DecidableEq, Repr

/-- The controller-private `AppState` (state.rs lines 46-60). -/
structure AppState where
  dictationState : DictationState
  modelPath : Option String
  selectedModel : String
  smartPaste : Bool
  language : String
  vocabEnabled : Bool
  translationEnabled : Bool
  translationTargetLang : String
  translationModel : String
  pendingOriginalText : Option String
  pendingCorrectedText : Option String
  pendingSourceText : Option String
  pendingTranslatedText : Option String
deriving DecidableEq, Repr

/-- Model of `source_language_for_translation` (lib.rs lines 217-223). -/
def source_language_for_translation (language : String) : String :=
  if language = "auto" then "auto" else language

/-- Observable side effects of the controller entry points, in execution
order. -/
inductive UiEffect where
  | emitState (s : DictationState)
  | showOverlay
  | hideOverlay
  | storeCapture
  | setStreamingFlag (b : Bool)
  | stopCapture
  | spawnLevelTicker
  | spawnStreamLoop
  | spawnFinalWaiter
  | sendAsr (r : TranscriptionRequest)
deriving Repr

/-- Environment of one `toggle_recording` / `cancel_recording` call:
outcomes of `check_accessibility_permission`, `AudioCapture::new`,
`start_recording`, whether the `ActiveCapture` slot holds a capture, and
the samples `stop_recording` returns. -/
structure ToggleEnv where
  accessibilityOk : Bool
  captureNewOk : Bool
  captureStartOk : Bool
  captureAvailable : Bool
  stoppedAudio : List ℚ
deriving Repr

/-- Model of `toggle_recording` (lib.rs lines 266-930): dispatch on the
current dictation state; Idle starts a recording (or errors), Recording
stops it and hands the audio to the ASR worker (or returns to Idle on an
empty buffer), Processing/Translating/Downloading/previews ignore the
hotkey, Error resets to Idle. -/
def toggle_recording (env : ToggleEnv) (st : AppState) : AppState × List UiEffect :=
  match st.dictationState with
  | .idle =>
      if ¬env.accessibilityOk then
        let es := DictationState.error
          "Accessibility access needed - check System Settings > Privacy > Accessibility"
        ({ st with dictationState := es }, [.emitState es, .showOverlay])
      else if ¬env.captureNewOk ∨ ¬env.captureStartOk then
        let es := DictationState.error
          "Microphone access needed - check System Settings > Privacy > Microphone"
        ({ st with dictationState := es }, [.emitState es, .showOverlay])
      else
        let rec0 := DictationState.recording 0 none none
          (source_language_for_translation st.language) st.translationTargetLang
        ({ st with dictationState := rec0 },
          [.storeCapture, .emitState rec0, .showOverlay, .setStreamingFlag true,
            .spawnLevelTicker, .spawnStreamLoop])
  | .recording _ _ _ _ _ =>
      let audio := if env.captureAvailable then env.stoppedAudio else []
      let stopFx := .setStreamingFlag false ::
        (if env.captureAvailable then [UiEffect.stopCapture] else [])
      if audio = [] then
        ({ st with dictationState := .idle },
          stopFx ++ [.emitState .idle, .hideOverlay])
      else
        ({ st with dictationState := .processing },
          stopFx ++ [.emitState .processing, .sendAsr (.transcribe audio), .spawnFinalWaiter])
  | .error _ =>
      ({ st with dictationState := .idle }, [.emitState .idle, .hideOverlay])
  | _ => (st, [])

/-- Model of `cancel_recording` (lib.rs lines 1628-1673): Recording is
torn down with the audio discarded, Error resets to Idle, every other
state ignores the event. -/
def cancel_recording (env : ToggleEnv) (st : AppState) : AppState × List UiEffect :=
  match st.dictationState with
  | .recording _ _ _ _ _ =>
      ({ st with dictationState := .idle },
        .setStreamingFlag false ::
          (if env.captureAvailable then [UiEffect.stopCapture] else []) ++
          [.emitState .idle, .hideOverlay])
  | .error _ =>
      ({ st with dictationState := .idle }, [.emitState .idle, .hideOverlay])
  | _ => (st, [])

/-- States in which the hotkey row of the transition table reads
"(no change), ignored". -/
def hotkeyIgnored (s : DictationState) : Prop :=
  s = .processing ∨ s = .translating ∨ (∃ p, s = .downloading p) ∨
  (∃ t o c, s = .correctionPreview t o c) ∨ (∃ a b c d, s = .translationPreview a b c d)

/-! ### src/vocabulary.rs

`apply_corrections` builds, for each enabled entry, the case-insensitive
word-boundary regex `(?i)\b{escape(phrase)}\b` (which, the phrase being
escaped, is a case-insensitive literal search between word boundaries),
collects all non-overlapping leftmost matches, applies the casing-derived
replacements from rightmost to leftmost, and finally sorts the recorded
corrections by position.  The regex crate is modelled directly: `\b` is a
transition between word and non-word characters (`\w` idealized to
alphanumeric-or-underscore), case folding is idealized to `Char.toLower`,
and `Regex::new` cannot fail on an escaped literal, so the `Err(_) =>
continue` arm is unreachable.  Rust's stable `sort_by_key` is modelled by
insertion sort — also stable, and stable sorts by the same key agree.
Text is a `Char` list; recorded positions are the UTF-8 byte offsets of
the corresponding char prefix, exactly the `m.start()` byte offsets. -/

/-- Regex `\w` (idealized): alphanumeric or underscore. -/
def isWordChar (c : Char) : Bool :=
  c.isAlphanum || c = '_'

/-- Whether position `i` of `text` holds a word character. -/
def isWordAt (text : List Char) (i : Nat) : Bool :=
  match text[i]? with
  | some c => isWordChar c
  | none => false

/-- Regex `\b` at position `i`: word-ness changes between `i - 1` and
`i` (positions outside the text count as non-word). -/
def boundaryAt (text : List Char) (i : Nat) : Bool :=
  (if i = 0 then false else isWordAt text (i - 1)) != isWordAt text i

/-- Case-insensitive character equality (the regex crate's case folding,
idealized to `Char.toLower`). -/
def ciEq (a b : Char) : Bool :=
  a.toLower == b.toLower

/-- Whether the literal `phrase` matches `text` at position `i` under
`(?i)\b…\b`. -/
def matchAt (phrase text : List Char) (i : Nat) : Bool :=
  let seg := (text.drop i).take phrase.length
  (seg.length == phrase.length) &&
  (List.zip seg phrase).all (fun p => ciEq p.1 p.2) &&
  boundaryAt text i && boundaryAt text (i + phrase.length)

/-- Scan for the non-overlapping leftmost match positions from position
`p` on, as `find_iter` yields them.  The fuel argument (`text.length + 1`
at the top call) only bounds the recursion; each step advances `p`. -/
def findFromAux (phrase text : List Char) : Nat → Nat → List Nat
  | 0, _ => []
  | fuel + 1, p =>
      if p > text.length then []
      else if matchAt phrase text p then
        p :: findFromAux phrase text fuel (p + max phrase.length 1)
      else findFromAux phrase text fuel (p + 1)

/-- All match start positions of `re.find_iter(&result)`. -/
def findMatches (phrase text : List Char) : List Nat :=
  findFromAux phrase text (text.length + 1) 0

/-- Model of `apply_case` (vocabulary.rs lines 87-99): all-caps matches
upper-case the whole replacement, capitalized matches upper-case its first
character, anything else keeps the replacement as stored. -/
def apply_case (matched replacement : List Char) : List Char :=
  if (matched.all fun c => !c.isAlpha || c.isUpper) && (matched.any fun c => c.isAlpha) then
    replacement.map Char.toUpper
  else if (match matched.head? with | some c => c.isUpper | none => false) then
    match replacement with
    | [] => []
    | c :: rest => c.toUpper :: rest
  else
    replacement

structure VocabEntry where
  id : Nat
  phrase : List Char
  replacement : List Char
  enabled : Bool
deriving DecidableEq, Repr

structure Vocabulary where
  entries : List VocabEntry
deriving DecidableEq, Repr

structure CorrectionResult where
  text : List Char
  corrections : List CorrectionApplied
deriving DecidableEq, Repr

/-- Rust `String::replace_range(s..e, r)` over the char list. -/
def replaceRange (l : List Char) (s e : Nat) (r : List Char) : List Char :=
  l.take s ++ r ++ l.drop e

/-- The `CorrectionApplied` pushed for a match `[s, e)` of the current
result: `original` is `result[s..e]`, `position` the byte offset of `s`. -/
def mkCorrection (res : List Char) (s e : Nat) (r : List Char) : CorrectionApplied :=
  { original := (res.drop s).take (e - s)
    replacement := r
    position := utf8Len (res.take s) }

/-- The `for (start, end, replacement) in matches.iter().rev()` loop:
record a correction from the current result, then replace the range.  The
input list is already reversed (descending positions). -/
def applyRev : List (Nat × Nat × List Char) → List Char → List Char × List CorrectionApplied
  | [], res => (res, [])
  | (s, e, r) :: rest, res =>
      let c := mkCorrection res s e r
      let out := applyRev rest (replaceRange res s e r)
      (out.1, c :: out.2)

/-- One enabled entry's pass over the current result: collect the matches
(with their cased replacements) from the current text, then apply them
end-to-start. -/
def entryPass (res : List Char) (entry : VocabEntry) : List Char × List CorrectionApplied :=
  let ms := (findMatches entry.phrase res).map fun s =>
    (s, s + entry.phrase.length,
      apply_case ((res.drop s).take entry.phrase.length) entry.replacement)
  applyRev ms.reverse res

/-- Ordering on corrections used by the final `sort_by_key(|c| c.position)`. -/
def posLe (a b : CorrectionApplied) : Prop :=
  a.position ≤ b.position

instance : DecidableRel posLe := fun a b => Nat.decLe a.position b.position

instance : IsTotal CorrectionApplied posLe :=
  ⟨fun a b => Nat.le_total a.position b.position⟩

instance : IsTrans CorrectionApplied posLe :=
  ⟨fun _ _ _ hab hbc => Nat.le_trans hab hbc⟩

/-- Model of `apply_corrections` (vocabulary.rs lines 101-143). -/
def apply_corrections (text : List Char) (vocabulary : Vocabulary) : CorrectionResult :=
  let folded := vocabulary.entries.foldl
    (fun (acc : List Char × List CorrectionApplied) entry =>
      if !entry.enabled then acc
      else
        let out := entryPass acc.1 entry
        (out.1, acc.2 ++ out.2))
    (text, [])
  { text := folded.1
    corrections := List.insertionSort posLe folded.2 }

/-! Auxiliary lemmas about the match scan and the replacement loop. -/

theorem matchAt_length (phrase text : List Char) (p : Nat) (hph : phrase ≠ [])
    (h : matchAt phrase text p = true) : p + phrase.length ≤ text.length := by
  unfold matchAt at h
  simp only [Bool.and_eq_true, beq_iff_eq] at h
  have hseg : ((text.drop p).take phrase.length).length = phrase.length := h.1.1.1
  have hlen : 0 < phrase.length := List.length_pos.mpr hph
  simp only [List.length_take, List.length_drop] at hseg
  omega

theorem findFromAux_mem (phrase text : List Char) (hph : phrase ≠ []) :
    ∀ fuel p m, m ∈ findFromAux phrase text fuel p →
      p ≤ m ∧ m + phrase.length ≤ text.length := by
  intro fuel
  induction fuel with
  | zero => intro p m hm; simp [findFromAux] at hm
  | succ fuel ih =>
      intro p m hm
      rw [findFromAux] at hm
      by_cases h1 : p > text.length
      · rw [if_pos h1] at hm
        simp at hm
      · rw [if_neg h1] at hm
        by_cases h2 : matchAt phrase text p = true
        · rw [if_pos h2] at hm
          rcases List.mem_cons.mp hm with rfl | hm2
          · exact ⟨le_refl m, matchAt_length phrase text m hph h2⟩
          · have h3 := ih _ _ hm2
            exact ⟨by omega, h3.2⟩
        · rw [if_neg h2] at hm
          have h3 := ih _ _ hm
          exact ⟨by omega, h3.2⟩

theorem findFromAux_cons (phrase text : List Char) (hph : phrase ≠ []) :
    ∀ fuel p m1 rest, findFromAux phrase text fuel p = m1 :: rest →
      m1 + phrase.length ≤ text.length ∧ ∀ m ∈ rest, m1 + phrase.length ≤ m := by
  intro fuel
  induction fuel with
  | zero => intro p m1 rest h; simp [findFromAux] at h
  | succ fuel ih =>
      intro p m1 rest h
      rw [findFromAux] at h
      by_cases h1 : p > text.length
      · rw [if_pos h1] at h
        simp at h
      · rw [if_neg h1] at h
        by_cases h2 : matchAt phrase text p = true
        · rw [if_pos h2] at h
          obtain ⟨rfl, hrest⟩ := List.cons_eq_cons.mp h
          refine ⟨matchAt_length phrase text p hph h2, ?_⟩
          intro m hm
          rw [← hrest] at hm
          have hmax : max phrase.length 1 = phrase.length := by
            have : 0 < phrase.length := List.length_pos.mpr hph
            omega
          have h3 := findFromAux_mem phrase text hph fuel (p + max phrase.length 1) m hm
          omega
        · rw [if_neg h2] at h
          exact ih _ _ _ h

theorem applyRev_append (xs ys : List (Nat × Nat × List Char)) (res : List Char) :
    applyRev (xs ++ ys) res
      = ((applyRev ys (applyRev xs res).1).1,
         (applyRev xs res).2 ++ (applyRev ys (applyRev xs res).1).2) := by
  induction xs generalizing res with
  | nil => simp [applyRev]
  | cons x xs ih =>
      obtain ⟨s, e, r⟩ := x
      simp [applyRev, ih]

/-- `utf8Len` grows along prefixes. -/
theorem utf8Len_take_le (l : List Char) (k : Nat) : utf8Len (l.take k) ≤ utf8Len l := by
  conv_rhs => rw [← List.take_append_drop k l]
  rw [utf8Len_append]
  omega

theorem utf8Len_pos (l : List Char) (h : l ≠ []) : 0 < utf8Len l := by
  cases l with
  | nil => exact absurd rfl h
  | cons c t =>
      have hc := charUtf8_ne_nil c
      have : 0 < (charUtf8 c).length := List.length_pos.mpr hc
      simp only [utf8Len, utf8Encode, List.flatMap_cons, List.length_append]
      omega

/-- Prefix preservation through the end-to-start replacement loop: if every
replaced range starts at or after `k`, the first `k` characters survive,
the length stays at least `k`, and every recorded byte position is at
least the byte length of that prefix. -/
theorem applyRev_take (xs : List (Nat × Nat × List Char)) (res : List Char) (k : Nat)
    (hk : k ≤ res.length) (hxs : ∀ x ∈ xs, k ≤ x.1) :
    (applyRev xs res).1.take k = res.take k ∧
    k ≤ (applyRev xs res).1.length ∧
    ∀ c ∈ (applyRev xs res).2, utf8Len (res.take k) ≤ c.position := by
  induction xs generalizing res with
  | nil => exact ⟨rfl, hk, by simp [applyRev]⟩
  | cons x xs ih =>
      obtain ⟨s, e, r⟩ := x
      have hks : k ≤ s := hxs (s, e, r) (List.mem_cons_self _ _)
      have htakes : (res.take s).length = min s res.length := List.length_take s res
      have hktake : k ≤ (res.take s).length := by omega
      have htake : (replaceRange res s e r).take k = res.take k := by
        unfold replaceRange
        rw [List.append_assoc, List.take_append_eq_append_take]
        have h0 : k - (res.take s).length = 0 := by omega
        rw [h0, List.take_take, min_eq_left hks]
        simp
      have hlen2 : k ≤ (replaceRange res s e r).length := by
        unfold replaceRange
        simp only [List.length_append, List.length_take]
        omega
      have ihy := ih (replaceRange res s e r) hlen2
        (fun x hx => hxs x (List.mem_cons_of_mem _ hx))
      have hfst : (applyRev ((s, e, r) :: xs) res).1
          = (applyRev xs (replaceRange res s e r)).1 := rfl
      have hsnd : (applyRev ((s, e, r) :: xs) res).2
          = mkCorrection res s e r :: (applyRev xs (replaceRange res s e r)).2 := rfl
      refine ⟨?_, ?_, ?_⟩
      · rw [hfst, ihy.1, htake]
      · rw [hfst]; exact ihy.2.1
      · intro c hc
        rw [hsnd] at hc
        rcases List.mem_cons.mp hc with rfl | hc2
        · show utf8Len (res.take k) ≤ utf8Len (res.take s)
          have hkk : res.take k = (res.take s).take k := by
            rw [List.take_take, min_eq_left hks]
          rw [hkk]
          exact utf8Len_take_le _ k
        · have h3 := ihy.2.2 c hc2
          rw [htake] at h3
          exact h3

/-- Within one entry's pass, the correction applied last (for the leftmost
match) is recorded at the end of the pass's correction list, has a byte
position strictly below every other recorded position, and its
replacement's bytes sit at its position in the pass's final text. -/
theorem entryPass_first (text : List Char) (entry : VocabEntry) (hph : entry.phrase ≠ [])
    (hne : (entryPass text entry).2 ≠ []) :
    ∃ c1 cs, (entryPass text entry).2 = cs ++ [c1] ∧
      (∀ c ∈ cs, c1.position < c.position) ∧
      ((utf8Encode (entryPass text entry).1).drop c1.position).take (utf8Len c1.replacement)
        = utf8Encode c1.replacement := by
  have hlen : 0 < entry.phrase.length := List.length_pos.mpr hph
  cases hms : findMatches entry.phrase text with
  | nil =>
      exfalso
      apply hne
      unfold entryPass
      rw [hms]
      rfl
  | cons m1 restM =>
      have hfc := findFromAux_cons entry.phrase text hph (text.length + 1) 0 m1 restM hms
      have he1 : m1 + entry.phrase.length ≤ text.length := hfc.1
      have hrest := hfc.2
      set len := entry.phrase.length with hlendef
      set f : Nat → Nat × Nat × List Char := fun s =>
        (s, s + len, apply_case ((text.drop s).take len) entry.replacement) with hf
      set r1 : List Char := apply_case ((text.drop m1).take len) entry.replacement with hr1
      have hmsmap : (findMatches entry.phrase text).map f
          = f m1 :: restM.map f := by rw [hms, List.map_cons]
      have hxs : ∀ x ∈ (restM.map f).reverse, m1 + len ≤ x.1 := by
        intro x hx
        rw [List.mem_reverse, List.mem_map] at hx
        obtain ⟨m, hm, rfl⟩ := hx
        exact hrest m hm
      have happ := applyRev_take ((restM.map f).reverse) text (m1 + len) he1 hxs
      set A := applyRev ((restM.map f).reverse) text with hA
      have hunf : entryPass text entry
          = ((applyRev [f m1] A.1).1, A.2 ++ (applyRev [f m1] A.1).2) := by
        unfold entryPass
        rw [← hlendef, ← hf, hmsmap]
        dsimp only
        rw [List.reverse_cons, applyRev_append, ← hA]
      have hsingle : applyRev [f m1] A.1
          = (replaceRange A.1 m1 (m1 + len) r1, [mkCorrection A.1 m1 (m1 + len) r1]) := by
        simp [applyRev, hf, hr1]
      have htakem1 : A.1.take m1 = text.take m1 := by
        have h1 : A.1.take m1 = (A.1.take (m1 + len)).take m1 := by
          rw [List.take_take, min_eq_left (by omega)]
        rw [h1, happ.1, List.take_take, min_eq_left (by omega)]
      set c1 := mkCorrection A.1 m1 (m1 + len) r1 with hc1
      have hc1pos : c1.position = utf8Len (text.take m1) := by
        rw [hc1]
        unfold mkCorrection
        rw [htakem1]
      have hc1rep : c1.replacement = r1 := rfl
      have hsplit : text.take (m1 + len) = text.take m1 ++ (text.drop m1).take len :=
        List.take_add text m1 len
      have hsegne : (text.drop m1).take len ≠ [] := by
        have hseg : ((text.drop m1).take len).length = len := by
          simp only [List.length_take, List.length_drop]
          omega
        intro hn
        rw [hn] at hseg
        simp at hseg
        omega
      have hstrict : utf8Len (text.take m1) < utf8Len (text.take (m1 + len)) := by
        rw [hsplit, utf8Len_append]
        have := utf8Len_pos _ hsegne
        omega
      refine ⟨c1, A.2, ?_, ?_, ?_⟩
      · rw [hunf, hsingle]
      · intro c hc
        have := happ.2.2 c hc
        rw [hc1pos]
        omega
      · rw [hunf, hsingle]
        have hT : (replaceRange A.1 m1 (m1 + len) r1)
            = text.take m1 ++ r1 ++ A.1.drop (m1 + len) := by
          unfold replaceRange
          rw [htakem1]
        rw [hT, hc1pos, hc1rep]
        rw [List.append_assoc, utf8Encode_append]
        have hposlen : utf8Len (text.take m1) = (utf8Encode (text.take m1)).length := rfl
        rw [hposlen, List.drop_left, utf8Encode_append]
        have hr1len : utf8Len r1 = (utf8Encode r1).length := rfl
        rw [hr1len, List.take_left]

/-- The head of any sorted permutation of a list with a unique position
minimum is that minimum. -/
theorem sorted_head_unique_min (l S : List CorrectionApplied) (c1 : CorrectionApplied)
    (hperm : S.Perm l) (hsort : S.Sorted posLe) (hmem : c1 ∈ l)
    (hmin : ∀ c ∈ l, c = c1 ∨ c1.position < c.position) :
    S.head? = some c1 := by
  cases S with
  | nil =>
      exfalso
      have : c1 ∈ ([] : List CorrectionApplied) := hperm.mem_iff.mpr hmem
      simp at this
  | cons h t =>
      have hhl : h ∈ l := hperm.subset (List.mem_cons_self h t)
      rcases hmin h hhl with rfl | hlt
      · rfl
      · exfalso
        have hc1S : c1 ∈ h :: t := hperm.mem_iff.mpr hmem
        have hne2 : c1 ≠ h := by
          intro he
          rw [he] at hlt
          exact lt_irrefl _ hlt
        have hc1t : c1 ∈ t := by
          rcases List.mem_cons.mp hc1S with he | ht2
          · exact absurd he hne2
          · exact ht2
        have hle : posLe h c1 := List.rel_of_sorted_cons hsort c1 hc1t
        unfold posLe at hle
        omega

/-- `apply_corrections` over a single enabled entry is that entry's pass,
sorted. -/
theorem apply_corrections_single (text : List Char) (entry : VocabEntry)
    (hen : entry.enabled = true) :
    apply_corrections text ⟨[entry]⟩
      = { text := (entryPass text entry).1,
          corrections := List.insertionSort posLe (entryPass text entry).2 } := by
  unfold apply_corrections
  simp [hen]

/-- C3 (counterexample). With the single enabled rule `a → bb` on the text
`"a a"`, the matches at byte 0 and byte 2 are replaced right to left,
producing `"bb bb"`; the recorded corrections keep positions 0 and 2, but
after the leftmost replacement the text shifted, so bytes `[2, 4)` of the
result are `" b"` and not `"bb"`: the per-correction substring invariant of
the claim fails for the correction at position 2. -/
theorem apply_corrections_substring_false :
    (apply_corrections "a a".toList ⟨[⟨1, "a".toList, "bb".toList, true⟩]⟩).corrections
      = [⟨"a".toList, "bb".toList, 0⟩, ⟨"a".toList, "bb".toList, 2⟩] ∧
    (apply_corrections "a a".toList ⟨[⟨1, "a".toList, "bb".toList, true⟩]⟩).text
      = "bb bb".toList ∧
    ¬ (((utf8Encode (apply_corrections "a a".toList
          ⟨[⟨1, "a".toList, "bb".toList, true⟩]⟩).text).drop 2).take (utf8Len "bb".toList)
        = utf8Encode "bb".toList) :=
  ⟨by decide, by decide, by decide⟩

/-- C3 (amended). For every text and vocabulary the corrections list is
sorted by ascending position.  The per-correction byte-range invariant
`text[position .. position+len(replacement)] = replacement` does NOT hold
for every correction: it is guaranteed for the first (least-position)
correction when a single (non-empty-phrase) entry is enabled; corrections
at later positions can be stale whenever an earlier, length-changing
replacement shifted the text under them, and with several enabled entries
a later entry's pass can rewrite regions recorded by an earlier one. -/
theorem apply_corrections_contract (text : List Char) (vocabulary : Vocabulary) :
    (apply_corrections text vocabulary).corrections.Sorted posLe ∧
    (∀ entry, vocabulary.entries = [entry] → entry.enabled = true → entry.phrase ≠ [] →
      ∀ c, (apply_corrections text vocabulary).corrections.head? = some c →
        ((utf8Encode (apply_corrections text vocabulary).text).drop c.position).take
            (utf8Len c.replacement)
          = utf8Encode c.replacement) := by
  constructor
  · unfold apply_corrections
    exact List.sorted_insertionSort posLe _
  · intro entry hsingle hen hph c hc
    obtain ⟨entries⟩ := vocabulary
    simp only at hsingle
    subst hsingle
    rw [apply_corrections_single text entry hen] at hc ⊢
    simp only at hc ⊢
    by_cases hout : (entryPass text entry).2 = []
    · rw [hout] at hc
      simp [List.insertionSort] at hc
    · obtain ⟨c1, cs, hdecomp, hstrict, hbytes⟩ := entryPass_first text entry hph hout
      have hc1mem : c1 ∈ (entryPass text entry).2 := by
        rw [hdecomp]
        exact List.mem_append_right cs (List.mem_singleton.mpr rfl)
      have hhead : (List.insertionSort posLe (entryPass text entry).2).head? = some c1 := by
        apply sorted_head_unique_min (entryPass text entry).2 _ c1
          (List.perm_insertionSort posLe _) (List.sorted_insertionSort posLe _) hc1mem
        intro c2 hc2
        rw [hdecomp] at hc2
        rcases List.mem_append.mp hc2 with hcs | hone
        · exact Or.inr (hstrict c2 hcs)
        · exact Or.inl (List.mem_singleton.mp hone)
      rw [hhead] at hc
      have hcc : c1 = c := by injection hc
      subst hcc
      exact hbytes

theorem apply_corrections_contract_witness :
    ([⟨1, "teh".toList, "the".toList, true⟩] : List VocabEntry)
      = [⟨1, "teh".toList, "the".toList, true⟩] ∧
    ("teh".toList ≠ ([] : List Char)) ∧
    (apply_corrections "I like teh cat".toList
        ⟨[⟨1, "teh".toList, "the".toList, true⟩]⟩).corrections.head?
      = some ⟨"teh".toList, "the".toList, 7⟩ ∧
    ((utf8Encode (apply_corrections "I like teh cat".toList
        ⟨[⟨1, "teh".toList, "the".toList, true⟩]⟩).text).drop 7).take (utf8Len "the".toList)
      = utf8Encode "the".toList :=
  ⟨rfl, by decide, by decide,
    (apply_corrections_contract "I like teh cat".toList
        ⟨[⟨1, "teh".toList, "the".toList, true⟩]⟩).2
      ⟨1, "teh".toList, "the".toList, true⟩ rfl rfl (by decide)
      ⟨"teh".toList, "the".toList, 7⟩ (by decide)⟩

/-- C5. `resample(x, r, r) == x` for every input and rate; resampling an empty
input returns it unchanged; and for a non-empty input and distinct positive
rates the output length is `⌊len(x) * b / a⌋` (positive rates: with a zero
rate the Rust code would request a `usize::MAX` capacity and abort, so the
length formula only makes sense for the actual u32 sample-rate domain). -/
theorem resample_contract (x : List ℚ) (r a b : Nat)
    (ha : 0 < a) (hb : 0 < b) (_hne : a ≠ b) (hx : x ≠ []) :
    resample x r r = x ∧
    resample ([] : List ℚ) a b = [] ∧
    (resample x a b).length = x.length * b / a := by
  refine ⟨by simp [resample], by simp [resample], ?_⟩
  by_cases hab : a = b
  · subst hab
    simp [resample, Nat.mul_div_cancel _ ha]
  · rw [resample, if_neg (by tauto)]
    simp [resampleOutputLen_eq x.length a b ha hb]

theorem resample_contract_witness :
    0 < 2 ∧ 0 < 3 ∧ (2 : Nat) ≠ 3 ∧ ([(1 : ℚ), 2, 3] ≠ []) ∧
    (resample [(1 : ℚ), 2, 3] 2 3).length = 4 :=
  ⟨by decide, by decide, by decide, by decide, by
    have h := (resample_contract [(1 : ℚ), 2, 3] 7 2 3 (by decide) (by decide)
      (by decide) (by decide)).2.2
    simpa using h⟩

/-- C10. `resample` never indexes out of bounds: for positive rates, every
`idx_floor` computed for an output index `i < output_len` is a valid index
into the input (and the interpolation reads `idx_floor + 1` only behind the
explicit guard `idx_floor + 1 < input.len()`), so the function is total. -/
theorem resample_no_out_of_bounds (input : List ℚ) (a b i : Nat)
    (ha : 0 < a) (hb : 0 < b)
    (hi : i < resampleOutputLen input.length a b) :
    resampleIdxFloor a b i < input.length := by
  rw [resampleOutputLen_eq input.length a b ha hb] at hi
  rw [resampleIdxFloor_eq a b i hb]
  have h1 : (i + 1) * a ≤ input.length * b := by
    have : i + 1 ≤ input.length * b / a := hi
    exact (Nat.le_div_iff_mul_le ha).mp this
  have h2 : i * a < input.length * b := by
    have : i * a < (i + 1) * a := by
      have h := Nat.mul_lt_mul_of_lt_of_le (Nat.lt_succ_self i) (le_refl a) ha
      simpa using h
    omega
  exact (Nat.div_lt_iff_lt_mul hb).mpr h2

theorem resample_no_out_of_bounds_witness :
    0 < 3 ∧ 0 < 2 ∧ 1 < resampleOutputLen 3 3 2 ∧ resampleIdxFloor 3 2 1 < 3 :=
  ⟨by decide, by decide,
    by rw [resampleOutputLen_eq 3 3 2 (by decide) (by decide)]; decide,
    resample_no_out_of_bounds [(1 : ℚ), 2, 3] 3 2 1 (by decide) (by decide)
      (by
        have h3 : ([(1 : ℚ), 2, 3]).length = 3 := rfl
        rw [h3, resampleOutputLen_eq 3 3 2 (by decide) (by decide)]
        decide)⟩

theorem samplesPerBar_eq (rate : Nat) : samplesPerBar rate = rate * 33 / 1000 := by
  unfold samplesPerBar
  have hq : ((33 : ℚ) / 1000) = ((33 : Nat) : ℚ) / ((1000 : Nat) : ℚ) := by norm_num
  rw [hq, floor_mul_div rate 33 1000 (by norm_num)]

/-- C6 (counterexample). For a one-sample buffer with 2 requested bars at a
1000 Hz rate (`samples_per_bar = 33`), the buffer holds fewer than
`2 * samples_per_bar` samples, yet the returned list is `[1, 0]`: the RMS bar
of the actual audio sits at index 0 and the zero-valued padding bar at the
BACK, index 1 — not at the front as the claim states. -/
theorem compute_levels_padding_at_front_false :
    ([(1 : ℚ)].length < 2 * samplesPerBar 1000) ∧
    computeLevelsSq [(1 : ℚ)] 1000 2 = [1, 0] ∧
    (compute_levels [(1 : ℚ)] 1000 2).getD 0 0 = 1 ∧
    (compute_levels [(1 : ℚ)] 1000 2).getD 1 0 = 0 ∧
    ¬ (compute_levels [(1 : ℚ)] 1000 2).getD 0 0 = 0 := by
  have hspb : samplesPerBar 1000 = 33 := by rw [samplesPerBar_eq]
  have hrel : levelsRelevant [(1 : ℚ)] 1000 2 = [(1 : ℚ)] := by
    unfold levelsRelevant
    rw [hspb]
    norm_num
  have hsq : computeLevelsSq [(1 : ℚ)] 1000 2 = [1, 0] := by
    unfold computeLevelsSq
    rw [hspb, hrel]
    have h0 : levelBarSq [(1 : ℚ)] 33 0 = 1 := by
      unfold levelBarSq
      norm_num
    have h1 : levelBarSq [(1 : ℚ)] 33 1 = 0 := by
      unfold levelBarSq
      norm_num
    simp [List.range_succ, h0, h1]
  refine ⟨by rw [hspb]; decide, hsq, ?_, ?_, ?_⟩ <;>
    simp [compute_levels, hsq]

/-- C6 (amended). `compute_levels` returns exactly `num_bars` values, each
non-negative; when the buffer holds fewer samples than requested, the
zero-valued padding bars occupy the BACK of the list: as soon as a bar's
chunk start is past the relevant buffer tail, that bar and every later bar
is zero, so the RMS bars of the actual audio come first and the padding
after them. -/
theorem compute_levels_bars (buffer : List ℚ) (rate numBars : Nat) :
    (compute_levels buffer rate numBars).length = numBars ∧
    (∀ x ∈ compute_levels buffer rate numBars, 0 ≤ x) ∧
    (∀ i j, i ≤ j → j < numBars →
      (levelsRelevant buffer rate numBars).length ≤ i * samplesPerBar rate →
      (compute_levels buffer rate numBars).getD j 0 = 0) := by
  refine ⟨?_, ?_, ?_⟩
  · simp only [compute_levels, computeLevelsSq, List.length_map, List.length_range]
  · intro x hx
    simp only [compute_levels, List.mem_map] at hx
    obtain ⟨q, _, rfl⟩ := hx
    exact Real.sqrt_nonneg _
  · intro i j hij hj hpad
    have hchunk : (levelsRelevant buffer rate numBars).length ≤ j * samplesPerBar rate :=
      hpad.trans (Nat.mul_le_mul_right _ hij)
    have hbar : levelBarSq (levelsRelevant buffer rate numBars) (samplesPerBar rate) j = 0 := by
      unfold levelBarSq
      rw [if_pos hchunk]
    simp [compute_levels, computeLevelsSq, List.getD_eq_getElem?_getD,
      List.getElem?_map, List.getElem?_range hj, hbar]

theorem compute_levels_bars_witness :
    (1 : Nat) ≤ 1 ∧ 1 < 2 ∧
    (levelsRelevant [(1 : ℚ), 1] 1000 2).length ≤ 1 * samplesPerBar 1000 ∧
    (compute_levels [(1 : ℚ), 1] 1000 2).getD 1 0 = 0 := by
  have hspb : samplesPerBar 1000 = 33 := by rw [samplesPerBar_eq]
  have hrel : (levelsRelevant [(1 : ℚ), 1] 1000 2).length ≤ 1 * samplesPerBar 1000 := by
    unfold levelsRelevant
    rw [hspb]
    norm_num
  exact ⟨by decide, by decide, hrel,
    (compute_levels_bars [(1 : ℚ), 1] 1000 2).2.2 1 1 (by decide) (by decide) hrel⟩

/-- C1. Drain policy of the ASR worker for a batch of Partial/Final
requests (the spec's `P₁ P₂ … Pₖ F` sequences): if the drained batch
contains a Final, exactly one response is produced — a
`TranscriptionComplete` carrying the transcription of the first Final's
samples — and nothing is emitted on the partial channel; if the batch
contains only Partials, no response is produced and at most one partial
string is emitted, namely the trimmed transcription of the newest drained
Partial's samples. -/
theorem asr_drain_policy (env : AsrEnv) (svc : TranscriptionService) (a0 : List ℚ)
    (queue : List TranscriptionRequest) (hq : ∀ r ∈ queue, isDrainReq r) :
    (∀ fa, firstFinal queue = some fa →
      (drainInterim env svc a0 queue).responses
        = [.transcriptionComplete (svc.transcribe env fa)] ∧
      (drainInterim env svc a0 queue).interim = []) ∧
    (firstFinal queue = none →
      (drainInterim env svc a0 queue).responses = [] ∧
      (drainInterim env svc a0 queue).interim.length ≤ 1 ∧
      ∀ s ∈ (drainInterim env svc a0 queue).interim,
        ∃ t, svc.transcribe env (newestInterim a0 queue) = .ok t ∧ s = trim t) := by
  induction queue generalizing a0 with
  | nil =>
      refine ⟨fun fa hfa => by simp [firstFinal] at hfa, fun _ => ?_⟩
      cases htr : svc.transcribe env a0 with
      | ok t =>
          refine ⟨by simp [drainInterim, htr], by simp [drainInterim, htr], ?_⟩
          intro s hs
          simp [drainInterim, htr] at hs
          exact ⟨t, by simpa [newestInterim] using htr, hs⟩
      | error e =>
          exact ⟨by simp [drainInterim, htr], by simp [drainInterim, htr],
            by simp [drainInterim, htr]⟩
  | cons r rest ih =>
      have hr : isDrainReq r := hq r (List.mem_cons_self r rest)
      have hrest : ∀ x ∈ rest, isDrainReq x := fun x hx => hq x (List.mem_cons_of_mem r hx)
      rcases hr with ⟨a, rfl⟩ | ⟨a, rfl⟩
      · refine ⟨fun fa hfa => ?_, fun hnone => ?_⟩
        · have : fa = a := by simpa [firstFinal] using hfa.symm
          subst this
          exact ⟨by simp [drainInterim], by simp [drainInterim]⟩
        · simp [firstFinal] at hnone
      · have hstep : drainInterim env svc a0 (.transcribeInterim a :: rest)
            = drainInterim env svc a rest := rfl
        have hff : firstFinal (TranscriptionRequest.transcribeInterim a :: rest)
            = firstFinal rest := rfl
        have hnew : newestInterim a0 (TranscriptionRequest.transcribeInterim a :: rest)
            = newestInterim a rest := rfl
        rw [hstep, hff, hnew]
        exact ih a hrest

/-- Concrete environment used by witnesses: loading always succeeds and
inference returns a fixed text. -/
def asrEnvC : AsrEnv :=
  { loadOk := fun _ => .ok ()
    infer := fun _ _ _ => .ok "hello" }

theorem asr_drain_policy_witness :
    (∀ r ∈ [TranscriptionRequest.transcribeInterim [2], TranscriptionRequest.transcribe [3]],
      isDrainReq r) ∧
    (drainInterim asrEnvC ⟨some "m"⟩ [1]
        [TranscriptionRequest.transcribeInterim [2], TranscriptionRequest.transcribe [3]]).responses
      = [.transcriptionComplete (.ok "hello")] ∧
    (drainInterim asrEnvC ⟨some "m"⟩ [1]
        [TranscriptionRequest.transcribeInterim [2], TranscriptionRequest.transcribe [3]]).interim
      = [] := by
  have hq : ∀ r ∈ [TranscriptionRequest.transcribeInterim [2],
      TranscriptionRequest.transcribe [3]], isDrainReq r := by
    intro r hr
    simp only [List.mem_cons, List.not_mem_nil, or_false] at hr
    rcases hr with rfl | rfl
    · exact Or.inr ⟨[2], rfl⟩
    · exact Or.inl ⟨[3], rfl⟩
  have h := (asr_drain_policy asrEnvC ⟨some "m"⟩ [1]
    [TranscriptionRequest.transcribeInterim [2], TranscriptionRequest.transcribe [3]] hq).1
    [3] rfl
  have htr : TranscriptionService.transcribe asrEnvC ⟨some "m"⟩ [3] = .ok "hello" := by
    simp [TranscriptionService.transcribe, asrEnvC]
    decide
  exact ⟨hq, by rw [h.1, htr], h.2⟩

/-- C4 (code evaluation). The worker's request type offers exactly
`LoadModel`, `Transcribe`, `TranscribePartial` and `Shutdown` — there is no
`SetLanguage` request to apply — and every transcription (partial or final)
runs with the hardcoded parameter block whose language hint is
`Some("en")`. -/
theorem asr_no_set_language :
    (∀ r : TranscriptionRequest,
      (∃ p, r = .loadModel p) ∨ (∃ a, r = .transcribe a) ∨
      (∃ a, r = .transcribeInterim a) ∨ r = .shutdown) ∧
    transcribeParams.language = some "en" ∧
    (∀ env svc audio m, svc.model = some m →
      TranscriptionService.transcribe env svc audio
        = match env.infer m transcribeParams audio with
          | .ok text => .ok (trim text)
          | .error e => .error ("Transcription failed: " ++ e)) := by
  refine ⟨?_, rfl, ?_⟩
  · intro r
    cases r with
    | loadModel p => exact Or.inl ⟨p, rfl⟩
    | transcribe a => exact Or.inr (Or.inl ⟨a, rfl⟩)
    | transcribeInterim a => exact Or.inr (Or.inr (Or.inl ⟨a, rfl⟩))
    | shutdown => exact Or.inr (Or.inr (Or.inr rfl))
  · intro env svc audio m hm
    simp [TranscriptionService.transcribe, hm]

theorem asr_no_set_language_witness :
    (⟨some "m"⟩ : TranscriptionService).model = some "m" ∧
    TranscriptionService.transcribe asrEnvC ⟨some "m"⟩ []
      = match asrEnvC.infer "m" transcribeParams [] with
        | .ok text => .ok (trim text)
        | .error e => .error ("Transcription failed: " ++ e) :=
  ⟨rfl, (asr_no_set_language).2.2 asrEnvC ⟨some "m"⟩ [] "m" rfl⟩

/-- Concrete detector/translator environment used in witnesses: detection
always fails, loading succeeds, inference returns a fixed text. -/
def mtEnvC : MtEnv :=
  { detect := fun _ => none
    loadOk := fun _ => .ok ()
    run := fun _ _ _ => .ok "x" }

/-- Concrete loaded translation service used in witnesses. -/
def mtSvcC : TranslationService :=
  { translator := some "t"
    sourceLang := some "en"
    targetLang := "en"
    modelLoaded := true }

/-- C7 (counterexample). With a loaded model and equal resolved source and
target languages, the worker does NOT return the input unchanged: for the
input `" hello "` (en → en) it returns the trimmed text `"hello"`, because
`translate` trims before the equal-language early return. -/
theorem mt_translate_same_lang_trims :
    TranslationService.translate mtEnvC mtSvcC
      { text := " hello ", sourceLang := "en", targetLang := "en" } = .ok "hello" ∧
    (" hello " : String) ≠ "hello" := by
  constructor
  · decide
  · decide

/-- C7 (amended). For a loaded model: empty trimmed input yields `Ok("")`;
an unsupported (non-empty-input) target language is an error; the literal
`auto` source resolves through detection with fallback to English when
detection fails or the detected language is unsupported; and when the
resolved source equals the resolved target the worker returns the TRIMMED
input (the input unchanged exactly when it has no surrounding
whitespace). -/
theorem mt_translate_contract (env : MtEnv) (svc : TranslationService) (job : TranslationJob)
    (hm : svc.modelLoaded = true) :
    (trim job.text = "" → svc.translate env job = .ok "") ∧
    (trim job.text ≠ "" → nllb_lang_for_app_lang job.targetLang = none →
      svc.translate env job = .error ("Unsupported target language " ++ job.targetLang)) ∧
    (∀ text, resolve_source_nllb_lang env "auto" text
      = some (((env.detect text).bind nllb_lang_for_detected).getD "eng_Latn")) ∧
    (trim job.text ≠ "" → ∀ tgt src, nllb_lang_for_app_lang job.targetLang = some tgt →
      resolve_source_nllb_lang env job.sourceLang (trim job.text) = some src →
      src = tgt → svc.translate env job = .ok (trim job.text)) := by
  refine ⟨?_, ?_, ?_, ?_⟩
  · intro he
    simp [TranslationService.translate, hm, he]
  · intro hne htgt
    simp [TranslationService.translate, hm, hne, htgt]
  · intro text
    unfold resolve_source_nllb_lang
    rw [if_pos rfl]
    cases h : (env.detect text).bind nllb_lang_for_detected with
    | none => simp [Option.or]
    | some l => simp [Option.or]
  · intro hne tgt src htgt hsrc heq
    subst heq
    simp [TranslationService.translate, hm, hne, htgt, hsrc]

theorem mt_translate_contract_witness :
    mtSvcC.modelLoaded = true ∧
    trim (" hello " : String) ≠ "" ∧
    nllb_lang_for_app_lang "en" = some "eng_Latn" ∧
    resolve_source_nllb_lang mtEnvC "en" (trim " hello ") = some "eng_Latn" ∧
    TranslationService.translate mtEnvC mtSvcC
      { text := " hello ", sourceLang := "en", targetLang := "en" } = .ok (trim " hello ") :=
  ⟨rfl, by decide, by decide, by decide,
    (mt_translate_contract mtEnvC mtSvcC
        { text := " hello ", sourceLang := "en", targetLang := "en" } rfl).2.2.2
      (by decide) "eng_Latn" "eng_Latn" (by decide) (by decide) rfl⟩

/-- Concrete paste environment (non-macOS platform) used by the
counterexample. -/
def pasteEnvLinux : PasteEnv :=
  { macos := false, focused := false, clip := some "old", clipboardNewOk := true,
    setTextOk := true, enigoNewOk := true, keyOk := true, restoreClipNewOk := true }

/-- Concrete paste environment (macOS, no text field focused) used by the
witness. -/
def pasteEnvMac : PasteEnv :=
  { macos := true, focused := false, clip := some "old", clipboardNewOk := true,
    setTextOk := true, enigoNewOk := true, keyOk := true, restoreClipNewOk := true }

/-- C9 (counterexample). On a non-macOS platform the auto-paste path still
synthesizes Meta+V — `Key::Meta` is hardcoded with no platform split — so
no Ctrl key event is ever produced, contradicting the claimed "Ctrl+V
elsewhere". -/
theorem paste_text_ctrl_v_false :
    pasteEnvLinux.macos = false ∧
    (paste_text pasteEnvLinux "T" true).keys
      = [KeyEvent.press .meta, KeyEvent.click (.unicode 'v'), KeyEvent.release .meta] ∧
    KeyEvent.press .ctrl ∉ (paste_text pasteEnvLinux "T" true).keys ∧
    KeyEvent.click .ctrl ∉ (paste_text pasteEnvLinux "T" true).keys := by
  refine ⟨rfl, by decide, by decide, by decide⟩

/-- C9 (amended). When smart paste is on and no text field is focused,
`paste_text` writes the text to the clipboard and returns with no
keystroke; otherwise it writes the text, synthesizes Meta+V (press Meta,
click 'v', release Meta — on every platform), and restores the previous
clipboard contents, clearing the clipboard when they were empty or
absent. -/
theorem paste_text_contract (env : PasteEnv) (text : String) (smartPaste : Bool)
    (hcb : env.clipboardNewOk = true) :
    (smartPaste = true → is_text_field_focused env = false → env.setTextOk = true →
      paste_text env text smartPaste
        = { result := .ok (), clip := some text, keys := [] }) ∧
    ((smartPaste = false ∨ is_text_field_focused env = true) →
      env.setTextOk = true → env.enigoNewOk = true → env.keyOk = true →
      env.restoreClipNewOk = true →
      (paste_text env text smartPaste).result = .ok () ∧
      (paste_text env text smartPaste).keys
        = [KeyEvent.press .meta, KeyEvent.click (.unicode 'v'), KeyEvent.release .meta] ∧
      (paste_text env text smartPaste).clip
        = (match env.clip with
            | some p => if p ≠ "" then some p else none
            | none => none)) := by
  constructor
  · intro hs hf hset
    subst hs
    simp [paste_text, hcb, hf, hset]
  · intro hauto hset henigo hkey hrestore
    have hcond : (!smartPaste || is_text_field_focused env) = true := by
      rcases hauto with h | h <;> simp [h]
    cases hclip : env.clip with
    | none =>
        refine ⟨?_, ?_, ?_⟩ <;>
          simp [paste_text, hcb, hcond, hset, henigo, hkey, hrestore, hclip]
    | some p =>
        by_cases hp : p = ""
        · refine ⟨?_, ?_, ?_⟩ <;>
            simp [paste_text, hcb, hcond, hset, henigo, hkey, hrestore, hclip, hp]
        · refine ⟨?_, ?_, ?_⟩ <;>
            simp [paste_text, hcb, hcond, hset, henigo, hkey, hrestore, hclip, hp]

theorem paste_text_contract_witness :
    pasteEnvMac.clipboardNewOk = true ∧
    is_text_field_focused pasteEnvMac = false ∧
    pasteEnvMac.setTextOk = true ∧
    paste_text pasteEnvMac "T" true
      = { result := .ok (), clip := some "T", keys := [] } :=
  ⟨rfl, rfl, rfl,
    (paste_text_contract pasteEnvMac "T" true rfl).1 rfl rfl rfl⟩

/-- Concrete default-like app state used by witnesses, with the dictation
state a parameter (the other fields mirror `AppState::default`). -/
def appStateWith (s : DictationState) : AppState :=
  { dictationState := s
    modelPath := none
    selectedModel := "base.en"
    smartPaste := true
    language := "en"
    vocabEnabled := true
    translationEnabled := false
    translationTargetLang := "en"
    translationModel := "nllb-200-distilled-600M-int8"
    pendingOriginalText := none
    pendingCorrectedText := none
    pendingSourceText := none
    pendingTranslatedText := none }

/-- C2. In Processing, Translating, Downloading, CorrectionPreview and
TranslationPreview the hotkey leaves the app state unchanged and performs
no side effect; in Error both the hotkey and Cancel reset the dictation
state to Idle (emitting Idle and hiding the overlay). -/
theorem toggle_ignored_and_error_reset (env : ToggleEnv) (st : AppState) :
    (hotkeyIgnored st.dictationState → toggle_recording env st = (st, [])) ∧
    (∀ m, st.dictationState = .error m →
      (toggle_recording env st).1.dictationState = .idle ∧
      (toggle_recording env st).2 = [.emitState .idle, .hideOverlay] ∧
      (cancel_recording env st).1.dictationState = .idle ∧
      (cancel_recording env st).2 = [.emitState .idle, .hideOverlay]) := by
  constructor
  · intro hig
    rcases hig with h | h | ⟨p, h⟩ | ⟨t, o, c, h⟩ | ⟨a, b, c, d, h⟩ <;>
      simp [toggle_recording, h]
  · intro m hm
    refine ⟨?_, ?_, ?_, ?_⟩ <;> simp [toggle_recording, cancel_recording, hm]

theorem toggle_ignored_and_error_reset_witness :
    hotkeyIgnored (appStateWith .processing).dictationState ∧
    (appStateWith (.error "x")).dictationState = .error "x" ∧
    toggle_recording
        { accessibilityOk := true, captureNewOk := true, captureStartOk := true,
          captureAvailable := false, stoppedAudio := [] }
        (appStateWith .processing)
      = (appStateWith .processing, []) ∧
    (toggle_recording
        { accessibilityOk := true, captureNewOk := true, captureStartOk := true,
          captureAvailable := false, stoppedAudio := [] }
        (appStateWith (.error "x"))).1.dictationState = .idle ∧
    (cancel_recording
        { accessibilityOk := true, captureNewOk := true, captureStartOk := true,
          captureAvailable := false, stoppedAudio := [] }
        (appStateWith (.error "x"))).1.dictationState = .idle := by
  have henv : ToggleEnv :=
    { accessibilityOk := true, captureNewOk := true, captureStartOk := true,
      captureAvailable := false, stoppedAudio := [] }
  refine ⟨Or.inl rfl, rfl, ?_, ?_, ?_⟩
  · exact (toggle_ignored_and_error_reset _ (appStateWith .processing)).1 (Or.inl rfl)
  · exact ((toggle_ignored_and_error_reset _ (appStateWith (.error "x"))).2 "x" rfl).1
  · exact ((toggle_ignored_and_error_reset _ (appStateWith (.error "x"))).2 "x" rfl).2.2.1

/-- Length of `add_entry`: inserting then truncating caps at the maximum. -/
theorem add_entry_length (e : HistoryEntry) (h : List HistoryEntry) :
    (add_entry e h).length = min MAX_HISTORY_ENTRIES (h.length + 1) := by
  unfold add_entry
  dsimp only
  split_ifs with hlen <;> simp_all

theorem addAll_length (l : List HistoryEntry) (h : List HistoryEntry)
    (hh : h.length ≤ MAX_HISTORY_ENTRIES) :
    (addAll l h).length = min MAX_HISTORY_ENTRIES (l.length + h.length) := by
  induction l generalizing h with
  | nil => simpa [addAll, MAX_HISTORY_ENTRIES] using hh
  | cons x xs ih =>
      have hstep : (add_entry x h).length ≤ MAX_HISTORY_ENTRIES := by
        rw [add_entry_length]; omega
      have : addAll (x :: xs) h = addAll xs (add_entry x h) := rfl
      rw [this, ih _ hstep, add_entry_length]
      simp [MAX_HISTORY_ENTRIES] at *
      omega

theorem add_entry_head (e : HistoryEntry) (h : List HistoryEntry) :
    (add_entry e h).head? = some e := by
  unfold add_entry
  dsimp only
  split_ifs <;> simp [MAX_HISTORY_ENTRIES]

theorem addAll_head (x : HistoryEntry) (xs : List HistoryEntry) (h : List HistoryEntry) :
    (addAll (x :: xs) h).head? = (x :: xs).getLast? := by
  induction xs generalizing x h with
  | nil => simpa [addAll] using add_entry_head x h
  | cons y ys ih =>
      have hstep : addAll (x :: y :: ys) h = addAll (y :: ys) (add_entry x h) := rfl
      rw [hstep, ih y (add_entry x h)]
      simp

/-- C8. History insertion places the new entry at index 0 and keeps at most
50 entries: one insertion into a history of length at most 50 yields head
`e` and length at most 50, any non-empty sequence of insertions keeps the
length at most 50 with the most recently inserted entry (the last of the
sequence) at index 0, and 100 insertions into an empty history yield
exactly 50 entries with the most recent first. -/
theorem add_entry_history_cap (e : HistoryEntry) (es h l : List HistoryEntry)
    (hh : h.length ≤ 50) (hne : es ≠ []) (hl : l.length = 100) :
    (add_entry e h).head? = some e ∧
    (add_entry e h).length ≤ 50 ∧
    (addAll es h).length ≤ 50 ∧
    (addAll es h).head? = es.getLast? ∧
    (addAll l []).length = 50 ∧
    (addAll l []).head? = l.getLast? := by
  have h50 : MAX_HISTORY_ENTRIES = 50 := rfl
  obtain ⟨x, xs, rfl⟩ := List.exists_cons_of_ne_nil hne
  have hl' : l ≠ [] := by
    intro hnil
    rw [hnil] at hl
    simp at hl
  obtain ⟨y, ys, rfl⟩ := List.exists_cons_of_ne_nil hl'
  refine ⟨add_entry_head e h, ?_, ?_, addAll_head x xs h, ?_, addAll_head y ys []⟩
  · rw [add_entry_length]; omega
  · rw [addAll_length _ _ (by omega)]; omega
  · rw [addAll_length _ _ (by simp [h50])]
    simp at hl ⊢
    omega

theorem add_entry_history_cap_witness :
    (([] : List HistoryEntry).length ≤ 50) ∧
    ([({ id := 0, text := [], timestampMs := 0, durationMs := 0 } : HistoryEntry)] ≠ []) ∧
    ((List.replicate 100 ({ id := 0, text := [], timestampMs := 0, durationMs := 0 } :
        HistoryEntry)).length = 100) ∧
    (addAll (List.replicate 100
        ({ id := 0, text := [], timestampMs := 0, durationMs := 0 } : HistoryEntry)) []).length
      = 50 :=
  ⟨by simp, by simp, by simp,
    (add_entry_history_cap { id := 0, text := [], timestampMs := 0, durationMs := 0 }
      [{ id := 0, text := [], timestampMs := 0, durationMs := 0 }] []
      (List.replicate 100 { id := 0, text := [], timestampMs := 0, durationMs := 0 })
      (by simp) (by simp) (by simp)).2.2.2.2.1⟩

end LocalTranscribe
